import Mathlib

set_option maxHeartbeats 1000000

/-!
# Verification of the repository-browser service layer

Shallow embedding of the core logic of `src/services/github.ts` and the
branch-selection logic of the application component (`src/unnamed/part_000`):

* `handleApiResponse` — uniform HTTP status classification;
* `fetchFileContent` — the two-strategy content fetch with rate-limit
  short-circuit;
* `parseRepoUrl` — free-form repository reference parsing;
* `buildTreeStructure` — flat `TreeEntry` list to nested `TreeNode` forest;
* the automatic default-branch selection of `handleFetchRepo`.

JavaScript strings are modelled as Lean `String`s and single-character
`String.prototype.split` as an explicit character-list splitter, so that all
definitions compute by kernel reduction.  `localeCompare` is modelled as
code-point lexicographic comparison.  The aliasing of tree nodes through the
`map` object in `buildTreeStructure` is modelled with an index-addressed node
store that is materialised into a `TreeNode` forest at the end; the
materialisation recursion is bounded by a fuel argument that provably exceeds
any possible nesting depth (child indices are strictly larger than their
parent's index).
-/

namespace AutodocSpec

/-! ## HTTP response classification (`handleApiResponse`, github.ts lines 82–99) -/

/-- The error taxonomy of `handleApiResponse`.  The code throws `Error`s with
fixed message strings; each constructor stands for one `throw` site:
`rateLimit` for "GitHub API Rate Limit Exceeded …", `notFoundOrPrivate` for
"Repository not found or is private …", `badCredentials` for
"Bad Credentials …", and `apiError` for the generic
"GitHub API Error: {status} {statusText}" message, which carries the numeric
status and status text. -/
inductive ApiFailure where
  | rateLimit
  | notFoundOrPrivate
  | badCredentials
  | apiError (status : Nat) (statusText : String)
deriving DecidableEq, Repr

/-- Model of the platform `Response` object: the HTTP status code, the status
text, and the already-parsed JSON body (`response.json()` is modelled as
reading the `body` field). -/
structure Response (α : Type) where
  status : Nat
  statusText : String
  body : α
deriving Repr

/-- `response.ok` of the Fetch API: status in the inclusive range 200–299. -/
def Response.isOk (r : Response α) : Bool :=
  decide (200 ≤ r.status) && decide (r.status ≤ 299)

/-- `handleApiResponse` from `src/services/github.ts` (lines 82–99). -/
def handleApiResponse (r : Response α) : Except ApiFailure α :=
  if r.isOk then .ok r.body
  else if r.status == 403 || r.status == 429 then .error .rateLimit
  else if r.status == 404 then .error .notFoundOrPrivate
  else if r.status == 401 then .error .badCredentials
  else .error (.apiError r.status r.statusText)

/-- The classification table exactly as the specification words it:
2xx parses the body as the payload; 403 or 429 fails with RateLimitExceeded;
404 fails with NotFoundOrPrivate; 401 fails with BadCredentials; every other
non-2xx status fails with a generic ApiError carrying the numeric status and
its status text. -/
def specClassify (r : Response α) : Except ApiFailure α :=
  if 200 ≤ r.status ∧ r.status ≤ 299 then .ok r.body
  else if r.status = 403 ∨ r.status = 429 then .error .rateLimit
  else if r.status = 404 then .error .notFoundOrPrivate
  else if r.status = 401 then .error .badCredentials
  else .error (.apiError r.status r.statusText)

/-! ## Content fetch fallback chain (`fetchFileContent`, github.ts lines 130–182) -/

/-- Shape of a parsed JSON payload as far as `fetchFileContent` inspects it:
either an array (`Array.isArray(data)`), or an object with an optional
`content` field and an optional `encoding` field. -/
inductive Payload where
  | arr
  | obj (content : Option String) (encoding : Option String)
deriving DecidableEq, Repr

/-- Outcome of one HTTP request as `fetchFileContent` observes it: a 2xx
response with a parsed body, or a non-2xx response with its status code. -/
inductive HttpResult where
  | success (body : Payload)
  | failure (status : Nat)
deriving DecidableEq, Repr

/-- The two failure modes `fetchFileContent` can end in: the re-thrown
"Rate Limit Exceeded" error, or the final
"Failed to fetch content (File too large or API limit reached)." error. -/
inductive FcError where
  | rateLimit
  | contentUnavailable
deriving DecidableEq, Repr

/-- What one strategy of the fallback chain contributes: a returned string,
a propagated rate-limit error, or falling through to the rest of the chain. -/
inductive StepOutcome where
  | ret (s : String)
  | rateLimited
  | pass
deriving DecidableEq, Repr

/-- Strategy 1 of `fetchFileContent` (the Contents API, lines 146–161):
on a 2xx response return `decode(data.content)` when the payload is not an
array and `data.content` is truthy (a non-empty string); on 403/429 throw the
rate-limit error (re-thrown by the surrounding catch); otherwise fall through
to the next strategy. -/
def contentsStep (decode : String → String) : HttpResult → StepOutcome
  | .success .arr => .pass
  | .success (.obj none _) => .pass
  | .success (.obj (some c) _) => if c = "" then .pass else .ret (decode c)
  | .failure status =>
      if status == 403 || status == 429 then .rateLimited else .pass

/-- Strategy 2 of `fetchFileContent` (the Git Blob API, lines 163–179):
on a 2xx response return `decode(data.content)` when `data.content` is truthy
and `data.encoding === 'base64'`; on 403/429 throw the rate-limit error;
otherwise fall through. -/
def blobStep (decode : String → String) : HttpResult → StepOutcome
  | .success .arr => .pass
  | .success (.obj none _) => .pass
  | .success (.obj (some c) enc) =>
      if c = "" then .pass
      else if enc = some "base64" then .ret (decode c) else .pass
  | .failure status =>
      if status == 403 || status == 429 then .rateLimited else .pass

/-- `fetchFileContent` from `src/services/github.ts` (lines 130–182), as a
function of the responses the two endpoints would give.  `decode` abstracts
`decodeContent` (base64 + UTF-8 decoding), which no claim constrains.  The
second component records whether the Blob API request was actually issued:
the source only reaches the `git/blobs` fetch after strategy 1 falls through
and only when a `sha` was supplied. -/
def fetchFileContent (decode : String → String) (contentsResp blobResp : HttpResult)
    (sha : Option String) : Except FcError String × Bool :=
  match contentsStep decode contentsResp with
  | .ret s => (.ok s, false)
  | .rateLimited => (.error .rateLimit, false)
  | .pass =>
    match sha with
    | none => (.error .contentUnavailable, false)
    | some _ =>
      match blobStep decode blobResp with
      | .ret s => (.ok s, true)
      | .rateLimited => (.error .rateLimit, true)
      | .pass => (.error .contentUnavailable, true)

/-! ## String primitives

JavaScript string operations modelled on the character list (`String.data`),
so that every definition reduces in the kernel. -/

/-- `String.prototype.split` with a single-character separator, on character
lists.  `split` of the empty string is `[""]`, matching JavaScript. -/
def splitChars (sep : Char) : List Char → List (List Char)
  | [] => [[]]
  | c :: cs =>
    if c = sep then [] :: splitChars sep cs
    else
      match splitChars sep cs with
      | [] => [[c]]
      | g :: gs => (c :: g) :: gs

/-- `String.prototype.split` with a single-character separator. -/
def jsSplit (sep : Char) (s : String) : List String :=
  (splitChars sep s.data).map String.mk

/-- `Array.prototype.join('/')` on character lists. -/
def joinChars (sep : Char) : List (List Char) → List Char
  | [] => []
  | [g] => g
  | g :: gs => g ++ sep :: joinChars sep gs

/-- `String.prototype.endsWith`. -/
def strEndsWith (s pat : String) : Bool := pat.data.isSuffixOf s.data

/-- `String.prototype.startsWith`. -/
def strStartsWith (s pat : String) : Bool := pat.data.isPrefixOf s.data

/-- `String.prototype.slice(0, -n)`: drop the last `n` characters. -/
def strDropRight (s : String) (n : Nat) : String :=
  String.mk (s.data.take (s.data.length - n))

/-- Does `pat` occur as a contiguous run inside `l`? -/
def isInfixCl (pat : List Char) : List Char → Bool
  | [] => pat.isEmpty
  | c :: cs => pat.isPrefixOf (c :: cs) || isInfixCl pat cs

/-- `String.prototype.includes`. -/
def containsStr (s pat : String) : Bool := isInfixCl pat.data s.data

/-- `String.prototype.trim`, trimming whitespace from both ends. -/
def jsTrim (s : String) : String :=
  String.mk (((s.data.dropWhile Char.isWhitespace).reverse.dropWhile
    Char.isWhitespace).reverse)

/-! ## URL parser (`parseRepoUrl`, github.ts lines 34–80) -/

/-- Character class `[a-zA-Z0-9-]` of the owner part of the strict pattern. -/
def ownerChar (c : Char) : Bool := c.isAlphanum || c = '-'

/-- Character class `[a-zA-Z0-9-_.]` of the repo part of the strict pattern. -/
def repoChar (c : Char) : Bool := c.isAlphanum || c = '-' || c = '_' || c = '.'

/-- The strict pattern `/^[a-zA-Z0-9-]+\/[a-zA-Z0-9-_.]+$/` of github.ts line
49: both character classes exclude `/`, so the whole string matches exactly
when splitting on `/` yields two non-empty parts drawn from the classes. -/
def simplePatternTest (s : String) : Bool :=
  match jsSplit '/' s with
  | [o, r] => !(o == "") && o.data.all ownerChar && !(r == "") && r.data.all repoChar
  | _ => false

/-- Valid scheme characters after the first (WHATWG): letters, digits,
`+`, `-`, `.`. -/
def schemeChar (c : Char) : Bool := c.isAlphanum || c = '+' || c = '-' || c = '.'

/-- Split a character list at the first occurrence of `"://"`. -/
def splitScheme : List Char → Option (List Char × List Char)
  | [] => none
  | ':' :: '/' :: '/' :: rest => some ([], rest)
  | c :: cs => (splitScheme cs).map (fun p => (c :: p.1, p.2))

/-- Modelled from the platform: the fragment of the browser `URL` constructor
that `parseRepoUrl` exercises.  Yields `(hostname, pathname)` for a
`scheme://host/path` string and `none` when the constructor would throw
(no valid `scheme://` prefix, or an empty host).  Userinfo, ports, queries and
fragments are not modelled; none of the verified inputs contain them. -/
def parseUrl (url : String) : Option (String × String) :=
  match splitScheme url.data with
  | none => none
  | some (schemeCs, rest) =>
    match schemeCs with
    | [] => none
    | c0 :: crest =>
      if c0.isAlpha && crest.all schemeChar then
        let host := rest.takeWhile (fun c => !(c = '/'))
        let path := rest.drop host.length
        if host.isEmpty then none
        else some (String.mk host, String.mk (if path.isEmpty then ['/'] else path))
      else none

/-- The preprocessing of `parseRepoUrl` (github.ts lines 36–46): trim
whitespace, strip one trailing `.git`, then strip one trailing `/` — in that
order. -/
def preprocess (input : String) : String :=
  let url := jsTrim input
  let url := if strEndsWith url ".git" then strDropRight url 4 else url
  if strEndsWith url "/" then strDropRight url 1 else url

/-- The full-URL branch of `parseRepoUrl` (github.ts lines 67–75): parse as a
URL, require the hostname to contain `github.com`, and take the first two
non-empty path segments as owner and repo. -/
def tryUrlCase (url : String) : Option (String × String) :=
  match parseUrl url with
  | none => none
  | some (host, pathname) =>
    if containsStr host "github.com" then
      match (jsSplit '/' pathname).filter (fun s => !(s == "")) with
      | o :: r :: _ => some (o, r)
      | _ => none
    else none

/-- `parseRepoUrl` from `src/services/github.ts` (lines 34–80).  A thrown
`URL` constructor error is caught and mapped to `none` (modelled inside
`parseUrl`/`tryUrlCase`). -/
def parseRepoUrl (input : String) : Option (String × String) :=
  let url := preprocess input
  if simplePatternTest url then
    match jsSplit '/' url with
    | o :: r :: _ => some (o, r)
    | _ => none
  else if strStartsWith url "http" then tryUrlCase url
  else if containsStr url "github.com" then tryUrlCase ("https://" ++ url)
  else
    match jsSplit '/' url with
    | [o, r] => some (o, r)
    | _ => tryUrlCase url

/-! ## Default branch selection (`handleFetchRepo`, app component lines 81–100) -/

/-- A branch as the application consumes it: name and commit SHA. -/
structure GitHubBranch where
  name : String
  commitSha : String
deriving DecidableEq, Repr

/-- The automatic branch selection of `handleFetchRepo`:
`branchList.find(b => b.name === details.default_branch) || branchList[0]`,
executed only when `branchList.length > 0`. -/
def selectDefaultBranch (branchList : List GitHubBranch) (defaultBranch : String) :
    Option GitHubBranch :=
  match branchList.find? (fun b => b.name == defaultBranch) with
  | some b => some b
  | none => branchList.head?

/-! ## Tree builder (`buildTreeStructure`, github.ts lines 184–220) -/

/-- The `type` field of a tree entry: `'tree'` (directory) or `'blob'` (file). -/
inductive EntryType where
  | tree
  | blob
deriving DecidableEq, Repr

/-- A flat entry as returned by the recursive tree fetch. -/
structure TreeEntry where
  path : String
  type : EntryType
  sha : String
deriving DecidableEq, Repr

/-- A node of the hierarchical tree.  `children` is `some` exactly for
directory nodes (the source sets `children: item.type === 'tree' ? [] :
undefined`). -/
inductive TreeNode where
  | mk (name : String) (path : String) (type : EntryType) (sha : String)
      (children : Option (List TreeNode))

/-- The `name` field of a node. -/
def TreeNode.name : TreeNode → String
  | .mk n _ _ _ _ => n

/-- The `path` field of a node. -/
def TreeNode.path : TreeNode → String
  | .mk _ p _ _ _ => p

/-- The `type` field of a node. -/
def TreeNode.type : TreeNode → EntryType
  | .mk _ _ t _ _ => t

/-- The `sha` field of a node. -/
def TreeNode.sha : TreeNode → String
  | .mk _ _ _ s _ => s

/-- The `children` field of a node. -/
def TreeNode.children : TreeNode → Option (List TreeNode)
  | .mk _ _ _ _ c => c

/-- Code-point lexicographic comparison of character lists (the model of
`localeCompare(a, b) <= 0`). -/
def charListLe : List Char → List Char → Bool
  | [], _ => true
  | _ :: _, [] => false
  | a :: as, b :: bs =>
    if a < b then true else if b < a then false else charListLe as bs

/-- Lexicographic string comparison. -/
def pathLe (a b : String) : Bool := charListLe a.data b.data

/-- The sort comparator of github.ts lines 188–191 as a "a sorts no later
than b" test: equal types compare by path (`localeCompare`, modelled as
code-point lexicographic order); otherwise `'tree'` sorts first. -/
def entryLeB (a b : TreeEntry) : Bool :=
  if a.type = b.type then pathLe a.path b.path
  else a.type == EntryType.tree

/-- `entryLeB` as a relation, for use with the stable sort. -/
def entryLe (a b : TreeEntry) : Prop := entryLeB a b = true

instance : DecidableRel entryLe := fun _ _ => inferInstanceAs (Decidable (_ = true))

/-- `items.sort(comparator)`: a stable sort by the comparator, modelled with
insertion sort (stable; ties are impossible for distinct paths anyway). -/
def sortEntries (items : List TreeEntry) : List TreeEntry :=
  List.insertionSort entryLe items

/-- `item.path.split('/')` followed by `parts.pop()` and `parts.join('/')`:
the parent path of an entry path. -/
def parentPathOf (p : String) : String :=
  String.mk (joinChars '/' ((splitChars '/' p.data).dropLast))

/-- The popped final segment of an entry path (the node's `name`). -/
def fileNameOf (p : String) : String :=
  String.mk ((splitChars '/' p.data).getLastD [])

/-- `parts.length === 0` after the pop: the entry path has no `/`. -/
def isRootEntry (p : String) : Bool :=
  (splitChars '/' p.data).dropLast.isEmpty

/-- A node record in the index-addressed store that models the JavaScript
node objects: the `children` of a directory are the store indices of the
nodes pushed into it. -/
structure StoredNode where
  name : String
  path : String
  type : EntryType
  sha : String
  children : Option (List Nat)
deriving DecidableEq, Repr

/-- The mutable state of the `forEach` loop of `buildTreeStructure`:
the node store (`nodes`, one record per processed entry, in processing
order), the `root` array (as store indices) and the `map` object
(`pathIdx`, most recent binding first, modelling overwrite). -/
structure BuildState where
  nodes : List StoredNode
  rootIdx : List Nat
  pathIdx : List (String × Nat)
deriving Repr

/-- `map[key]`: the most recently written binding wins. -/
def lookupIdx (m : List (String × Nat)) (key : String) : Option Nat :=
  match m.find? (fun e => e.1 == key) with
  | some e => some e.2
  | none => none

/-- The node constructed for one entry (github.ts lines 198–204). -/
def mkStored (e : TreeEntry) : StoredNode :=
  { name := fileNameOf e.path, path := e.path, type := e.type, sha := e.sha,
    children := if e.type = EntryType.tree then some [] else none }

/-- One iteration of the `forEach` loop (github.ts lines 193–217): create the
node, record it in the map, then either push it to `root` (no parent path, or
parent absent from the map) or push its index into the parent's `children`
(a silent no-op when the mapped parent has no children container — the
optional chaining `map[parentPath].children?.push(node)`). -/
def addEntry (st : BuildState) (e : TreeEntry) : BuildState :=
  let i := st.nodes.length
  let nodes := st.nodes ++ [mkStored e]
  let pathIdx := (e.path, i) :: st.pathIdx
  if isRootEntry e.path then
    { nodes := nodes, rootIdx := st.rootIdx ++ [i], pathIdx := pathIdx }
  else
    match lookupIdx pathIdx (parentPathOf e.path) with
    | none => { nodes := nodes, rootIdx := st.rootIdx ++ [i], pathIdx := pathIdx }
    | some j =>
      match nodes[j]? with
      | none => { nodes := nodes, rootIdx := st.rootIdx, pathIdx := pathIdx }
      | some pn =>
        match pn.children with
        | none => { nodes := nodes, rootIdx := st.rootIdx, pathIdx := pathIdx }
        | some cs =>
          { nodes := nodes.set j { pn with children := some (cs ++ [i]) },
            rootIdx := st.rootIdx, pathIdx := pathIdx }

/-- Materialise the node graph at index `i` into a `TreeNode`.  The recursion
is bounded by `fuel`; since every child index is strictly larger than its
parent's index, any fuel exceeding the store size reproduces the JavaScript
object graph exactly (no cycle can exist). -/
def toNode (ns : List StoredNode) : Nat → Nat → TreeNode
  | 0, i =>
    match ns[i]? with
    | none => .mk "" "" .blob "" none
    | some n => .mk n.name n.path n.type n.sha (n.children.map (fun _ => []))
  | fuel + 1, i =>
    match ns[i]? with
    | none => .mk "" "" .blob "" none
    | some n =>
      .mk n.name n.path n.type n.sha
        (n.children.map (fun cs => cs.map (toNode ns fuel)))

/-- The empty initial state of the loop. -/
def initState : BuildState := { nodes := [], rootIdx := [], pathIdx := [] }

/-- `buildTreeStructure` from `src/services/github.ts` (lines 184–220):
sort, run the single `forEach` pass, and return the `root` array of node
objects. -/
def buildTreeStructure (items : List TreeEntry) : List TreeNode :=
  let sorted := sortEntries items
  let st := sorted.foldl addEntry initState
  st.rootIdx.map (toNode st.nodes (st.nodes.length + 1))

/-- All node paths in the tree rooted at a node, in preorder, visiting at
most `fuel` levels. -/
def nodePaths : Nat → TreeNode → List String
  | 0, n => [n.path]
  | fuel + 1, n =>
    n.path ::
      (match n.children with
       | none => []
       | some cs => cs.flatMap (nodePaths fuel))

/-- All node paths of a forest, in preorder. -/
def forestPaths (fuel : Nat) (forest : List TreeNode) : List String :=
  forest.flatMap (nodePaths fuel)

/-- Paths of the subtree materialised from store index `i`. -/
def flat (ns : List StoredNode) (fuel i : Nat) : List String :=
  nodePaths fuel (toNode ns fuel i)

/-- The sibling order the specification mandates, as a test on two adjacent
nodes: directories before files; within the same type, lexicographic by full
path. -/
def nodeLeB (a b : TreeNode) : Bool :=
  if a.type = b.type then pathLe a.path b.path
  else a.type == EntryType.tree

/-- Are adjacent elements of a node list in the mandated sibling order? -/
def chainLeB : List TreeNode → Bool
  | [] => true
  | [_] => true
  | a :: b :: rest => nodeLeB a b && chainLeB (b :: rest)

/-- Are the siblings at every level of a forest (to depth `fuel`) in the
mandated order? -/
def siblingsSortedB : Nat → List TreeNode → Bool
  | 0, _ => true
  | fuel + 1, forest =>
    chainLeB forest &&
      forest.all (fun n =>
        match n.children with
        | none => true
        | some cs => siblingsSortedB fuel cs)

/-! ## Claims about response classification and the fetch chain -/

/-- **C5.** For every forge API response, the uniform classification maps the
HTTP status as follows: 2xx parses the body as the payload; 403 or 429 fails
with RateLimitExceeded; 404 fails with NotFoundOrPrivate; 401 fails with
BadCredentials; and every other non-2xx status fails with a generic ApiError
carrying the numeric status and its status text.  `handleApiResponse` agrees
with the specification's classification table on every response. -/
theorem C5_classification {α : Type} (r : Response α) :
    handleApiResponse r = specClassify r := by
  unfold handleApiResponse specClassify Response.isOk
  split_ifs with h1 h2 h3 h4 h5 h6 h7 h8 <;>
    first
      | rfl
      | (exfalso; simp only [Bool.and_eq_true, Bool.or_eq_true, decide_eq_true_eq,
          beq_iff_eq] at *; omega)

/-- **C2.** For every call to `fetchFileContent` in which the path-addressed
(Contents API) request returns HTTP status 403 or 429, the operation fails
with the rate-limit error without ever attempting the content-id-addressed
(Blob API) request (second component `false`), even when a `sha` was
supplied. -/
theorem C2_rate_limit_short_circuit (decode : String → String)
    (blobResp : HttpResult) (sha : Option String) (status : Nat)
    (h : status = 403 ∨ status = 429) :
    fetchFileContent decode (.failure status) blobResp sha =
      (.error .rateLimit, false) := by
  rcases h with h | h <;> subst h <;> rfl

/-- Witness for C2: a concrete 403 response with a supplied sha. -/
theorem C2_rate_limit_short_circuit_witness :
    ((403 : Nat) = 403 ∨ (403 : Nat) = 429) ∧
    fetchFileContent id (.failure 403) (.success .arr) (some "abc") =
      (.error .rateLimit, false) :=
  ⟨Or.inl rfl,
    C2_rate_limit_short_circuit id (.success .arr) (some "abc") 403 (Or.inl rfl)⟩

/-- **C8.** A path-addressed response whose JSON payload is an array is a
non-result: strategy 1 falls through, the chain proceeds to the Blob API
strategy whenever a sha was supplied (second component `true`), and if both
strategies are exhausted without returning the call fails with
ContentUnavailable. -/
theorem C8_array_falls_through (decode : String → String) (blobResp : HttpResult)
    (sha : Option String) :
    contentsStep decode (.success .arr) = .pass ∧
    (∀ s, sha = some s → (fetchFileContent decode (.success .arr) blobResp sha).2 = true) ∧
    (blobStep decode blobResp = .pass →
      fetchFileContent decode (.success .arr) blobResp sha =
        (.error .contentUnavailable, sha.isSome)) := by
  refine ⟨rfl, ?_, ?_⟩
  · intro s hs
    subst hs
    unfold fetchFileContent
    cases hb : blobStep decode blobResp <;> simp [contentsStep, hb]
  · intro hb
    cases sha with
    | none => rfl
    | some s =>
      unfold fetchFileContent
      simp [contentsStep, hb]

/-- Witness for C8: a directory-shaped payload, a failing blob request and a
supplied sha yield ContentUnavailable with the blob request attempted. -/
theorem C8_array_falls_through_witness :
    blobStep id (.failure 500) = .pass ∧
    fetchFileContent id (.success .arr) (.failure 500) (some "abc") =
      (.error .contentUnavailable, true) :=
  ⟨rfl, (C8_array_falls_through id (.failure 500) (some "abc")).2.2 rfl⟩

/-- **C10.** A path-addressed response that is a non-array object whose
`content` field is the empty string (an empty file) does not return from
strategy 1 — the truthiness check rejects `""` — and consequently, when no
sha was supplied, the call fails with ContentUnavailable instead of returning
the empty string. -/
theorem C10_empty_content_falsy (decode : String → String) (enc : Option String)
    (blobResp : HttpResult) :
    contentsStep decode (.success (.obj (some "") enc)) = .pass ∧
    fetchFileContent decode (.success (.obj (some "") enc)) blobResp none =
      (.error .contentUnavailable, false) :=
  ⟨rfl, rfl⟩

/-! ## Claims about the URL parser -/

/-- **C3, counterexample.** The claim says the input
`"https://github.com/facebook/react.git/"` maps to
`{owner:"facebook", repo:"react"}`; the code returns repo `"react.git"`,
because `.git` is stripped only when it is the final suffix and here the
trailing slash follows it. -/
theorem C3_counterexample :
    ¬ parseRepoUrl "https://github.com/facebook/react.git/" =
        some ("facebook", "react") := by decide

/-- **C3, amended.** The URL Parser maps
`"https://github.com/facebook/react.git/"` to
`{owner:"facebook", repo:"react.git"}`: the `.git` strip precedes the
trailing-slash strip and applies only when `.git` is the final suffix, so
only the slash is removed here. -/
theorem C3_amended :
    parseRepoUrl "https://github.com/facebook/react.git/" =
      some ("facebook", "react.git") := by decide

/-- **C4, counterexample.** The claim omits that the fallback is only reached
when the preprocessed string does not start with `"http"`: the input
`"http_foo/bar"` splits into exactly two non-empty parts, fails the strict
pattern, and does not contain the forge hostname, yet the parser returns
`none` (the `URL` constructor branch throws) instead of
`{owner:"http_foo", repo:"bar"}`. -/
theorem C4_counterexample :
    jsSplit '/' (preprocess "http_foo/bar") = ["http_foo", "bar"] ∧
    simplePatternTest (preprocess "http_foo/bar") = false ∧
    containsStr (preprocess "http_foo/bar") "github.com" = false ∧
    parseRepoUrl "http_foo/bar" = none := by decide

/-- **C4, amended.** For every input string that, after the documented
preprocessing, splits on `/` into exactly two non-empty parts but does not
match the strict owner/repo pattern, does not contain the forge hostname,
and does not begin with `"http"`, the URL Parser returns those two parts as
`{owner, repo}`. -/
theorem C4_amended (input o r : String)
    (hsplit : jsSplit '/' (preprocess input) = [o, r])
    (_ho : ¬ o = "") (_hr : ¬ r = "")
    (hpat : simplePatternTest (preprocess input) = false)
    (hhttp : strStartsWith (preprocess input) "http" = false)
    (hgh : containsStr (preprocess input) "github.com" = false) :
    parseRepoUrl input = some (o, r) := by
  unfold parseRepoUrl
  simp only [hpat, hhttp, hgh, hsplit, Bool.false_eq_true, if_false]

/-- Witness for C4: a concrete underscore-carrying owner routed through the
fallback. -/
theorem C4_amended_witness :
    jsSplit '/' (preprocess "a_b/c") = ["a_b", "c"] ∧
    ¬ "a_b" = "" ∧ ¬ "c" = "" ∧
    simplePatternTest (preprocess "a_b/c") = false ∧
    strStartsWith (preprocess "a_b/c") "http" = false ∧
    containsStr (preprocess "a_b/c") "github.com" = false ∧
    parseRepoUrl "a_b/c" = some ("a_b", "c") :=
  ⟨by decide, by decide, by decide, by decide, by decide, by decide,
    C4_amended "a_b/c" "a_b" "c" (by decide) (by decide) (by decide) (by decide)
      (by decide) (by decide)⟩

/-! ## Claim about branch selection -/

/-- **C9.** After a successful repository summary fetch and a non-empty
branch list fetch, the branch whose name equals the repository's default
branch is selected automatically when present; when the default branch name
is absent from the list, the first returned branch is selected instead (and a
branch is always selected). -/
theorem C9_default_branch_selection (branchList : List GitHubBranch)
    (defaultBranch : String) (hne : branchList ≠ []) :
    ((∃ b ∈ branchList, b.name = defaultBranch) →
      ∃ b, selectDefaultBranch branchList defaultBranch = some b ∧
        b.name = defaultBranch) ∧
    ((∀ b ∈ branchList, b.name ≠ defaultBranch) →
      selectDefaultBranch branchList defaultBranch = branchList.head?) ∧
    (selectDefaultBranch branchList defaultBranch).isSome = true := by
  unfold selectDefaultBranch
  cases hf : branchList.find? (fun b => b.name == defaultBranch) with
  | some b =>
    have hpb : b.name = defaultBranch := by simpa using List.find?_some hf
    refine ⟨fun _ => ⟨b, rfl, hpb⟩, fun hall => ?_, rfl⟩
    exact absurd hpb (hall b (List.mem_of_find?_eq_some hf))
  | none =>
    refine ⟨?_, fun _ => rfl, ?_⟩
    · rintro ⟨b, hb, hname⟩
      have := List.find?_eq_none.mp hf b hb
      simp [hname] at this
    · cases branchList with
      | nil => exact absurd rfl hne
      | cons a l => rfl

/-- Witness for C9: the spec's scenario with branches `["main","dev"]` and
default branch `"main"`. -/
theorem C9_default_branch_selection_witness :
    (([⟨"main", "s1"⟩, ⟨"dev", "s2"⟩] : List GitHubBranch) ≠ []) ∧
    ∃ b, selectDefaultBranch [⟨"main", "s1"⟩, ⟨"dev", "s2"⟩] "main" = some b ∧
      b.name = "main" :=
  ⟨by decide,
    (C9_default_branch_selection [⟨"main", "s1"⟩, ⟨"dev", "s2"⟩] "main"
      (by decide)).1 ⟨⟨"main", "s1"⟩, by decide, rfl⟩⟩

/-! ## Comparator lemmas -/

/-- Totality of the lexicographic character-list comparison. -/
theorem charListLe_total : ∀ a b, charListLe a b = true ∨ charListLe b a = true
  | [], _ => Or.inl rfl
  | _ :: _, [] => Or.inr rfl
  | a :: as, b :: bs => by
    rcases lt_trichotomy a b with h | h | h
    · left; simp [charListLe, h]
    · subst h
      have := charListLe_total as bs
      simpa [charListLe, lt_irrefl] using this
    · right; simp [charListLe, h, not_lt_of_gt h]

/-- Transitivity of the lexicographic character-list comparison. -/
theorem charListLe_trans : ∀ {a b c : List Char}, charListLe a b = true →
    charListLe b c = true → charListLe a c = true
  | [], _, _, _, _ => rfl
  | _ :: _, [], _, h1, _ => by simp [charListLe] at h1
  | _ :: _, _ :: _, [], _, h2 => by simp [charListLe] at h2
  | a :: as, b :: bs, c :: cs, h1, h2 => by
    by_cases hab : a < b <;> by_cases hbc : b < c
    · simp [charListLe, lt_trans hab hbc]
    · have hbc' : b = c := by
        by_contra hne
        rcases lt_trichotomy b c with h | h | h
        · exact hbc h
        · exact hne h
        · simp [charListLe, h, not_lt_of_gt h] at h2
      subst hbc'
      simp [charListLe, hab]
    · have hab' : a = b := by
        by_contra hne
        rcases lt_trichotomy a b with h | h | h
        · exact hab h
        · exact hne h
        · simp [charListLe, h, not_lt_of_gt h] at h1
      subst hab'
      simp [charListLe, hbc]
    · have hab' : a = b := by
        by_contra hne
        rcases lt_trichotomy a b with h | h | h
        · exact hab h
        · exact hne h
        · simp [charListLe, h, not_lt_of_gt h] at h1
      subst hab'
      have hbc' : a = c := by
        by_contra hne
        rcases lt_trichotomy a c with h | h | h
        · exact hbc h
        · exact hne h
        · simp [charListLe, h, not_lt_of_gt h] at h2
      subst hbc'
      simp [charListLe, lt_irrefl] at h1 h2 ⊢
      exact charListLe_trans h1 h2

/-- Antisymmetry of the lexicographic character-list comparison. -/
theorem charListLe_antisymm : ∀ {a b : List Char}, charListLe a b = true →
    charListLe b a = true → a = b
  | [], [], _, _ => rfl
  | [], _ :: _, _, h2 => by simp [charListLe] at h2
  | _ :: _, [], h1, _ => by simp [charListLe] at h1
  | a :: as, b :: bs, h1, h2 => by
    have hab : a = b := by
      by_contra hne
      rcases lt_trichotomy a b with h | h | h
      · simp [charListLe, h, not_lt_of_gt h] at h2
      · exact hne h
      · simp [charListLe, h, not_lt_of_gt h] at h1
    subst hab
    simp only [charListLe, lt_irrefl, if_false] at h1 h2
    rw [charListLe_antisymm h1 h2]

/-- Strings with equal character data are equal. -/
theorem stringDataEq {a b : String} (h : a.data = b.data) : a = b := by
  cases a; cases b; exact congrArg String.mk h

instance : IsTotal TreeEntry entryLe := by
  constructor
  intro a b
  unfold entryLe entryLeB
  by_cases h : a.type = b.type
  · simp only [h, if_true, eq_self_iff_true]
    have := charListLe_total a.path.data b.path.data
    simpa [pathLe, h] using this
  · have h' : ¬ b.type = a.type := fun hc => h hc.symm
    cases ha : a.type <;> cases hb : b.type <;> simp_all

instance : IsTrans TreeEntry entryLe := by
  constructor
  intro a b c h1 h2
  unfold entryLe entryLeB at h1 h2 ⊢
  cases ha : a.type <;> cases hb : b.type <;> cases hc : c.type <;>
    simp_all [pathLe] <;> exact charListLe_trans h1 h2

/-- Two entries each sorting no later than the other have the same path. -/
theorem entryLe_antisymm_path {a b : TreeEntry} (h1 : entryLe a b)
    (h2 : entryLe b a) : a.path = b.path := by
  unfold entryLe entryLeB at h1 h2
  by_cases h : a.type = b.type
  · rw [if_pos h] at h1
    rw [if_pos h.symm] at h2
    exact stringDataEq (charListLe_antisymm h1 h2)
  · have h' : ¬ b.type = a.type := fun hc => h hc.symm
    rw [if_neg h] at h1
    rw [if_neg h'] at h2
    cases ha : a.type <;> cases hb : b.type <;> simp_all

/-- Sorted lists over the comparator are unique within a permutation class
whose paths are pairwise distinct. -/
theorem sorted_eq_of_perm : ∀ (s₁ s₂ : List TreeEntry), s₁.Perm s₂ →
    s₁.Sorted entryLe → s₂.Sorted entryLe →
    (s₁.map TreeEntry.path).Nodup → s₁ = s₂ := by
  intro s₁
  induction s₁ with
  | nil =>
    intro s₂ hp _ _ _
    exact hp.nil_eq
  | cons a t₁ ih =>
    intro s₂ hp hs₁ hs₂ hd
    cases s₂ with
    | nil => exact absurd hp.symm.nil_eq (by simp)
    | cons b t₂ =>
      by_cases hab : a = b
      · subst hab
        rw [ih t₂ hp.cons_inv hs₁.of_cons hs₂.of_cons (by simpa using hd.of_cons)]
      · exfalso
        have hbmem : b ∈ t₁ := by
          have : b ∈ a :: t₁ := hp.symm.subset (List.mem_cons_self b t₂)
          rcases List.mem_cons.mp this with h | h
          · exact absurd h.symm hab
          · exact h
        have hamem : a ∈ t₂ := by
          have : a ∈ b :: t₂ := hp.subset (List.mem_cons_self a t₁)
          rcases List.mem_cons.mp this with h | h
          · exact absurd h hab
          · exact h
        have hle1 : entryLe a b := List.rel_of_sorted_cons hs₁ b hbmem
        have hle2 : entryLe b a := List.rel_of_sorted_cons hs₂ a hamem
        have hpath : a.path = b.path := entryLe_antisymm_path hle1 hle2
        have : a.path ∉ t₁.map TreeEntry.path := by
          simpa using (List.nodup_cons.mp hd).1
        exact this (hpath ▸ List.mem_map_of_mem TreeEntry.path hbmem)

/-! ## Claim C6 -/

/-- **C6.** `buildTreeStructure` is invariant under permutation of its input:
for every two input lists that are permutations of the same entry set with
pairwise-distinct paths, the output forests are structurally identical,
because the mandated sort precedes the single-pass construction. -/
theorem C6_permutation_invariance (l₁ l₂ : List TreeEntry) (hp : l₁.Perm l₂)
    (hd : (l₁.map TreeEntry.path).Nodup) :
    buildTreeStructure l₁ = buildTreeStructure l₂ := by
  have hsorteq : sortEntries l₁ = sortEntries l₂ := by
    apply sorted_eq_of_perm
    · exact (List.perm_insertionSort entryLe l₁).trans
        (hp.trans (List.perm_insertionSort entryLe l₂).symm)
    · exact List.sorted_insertionSort entryLe l₁
    · exact List.sorted_insertionSort entryLe l₂
    · exact (((List.perm_insertionSort entryLe l₁).map TreeEntry.path).nodup_iff).mpr hd
  unfold buildTreeStructure
  rw [hsorteq]

/-- Witness for C6: the same two entries in both orders produce the same
forest. -/
theorem C6_permutation_invariance_witness :
    ([⟨"a", .tree, "s1"⟩, ⟨"b.txt", .blob, "s2"⟩] : List TreeEntry).Perm
        [⟨"b.txt", .blob, "s2"⟩, ⟨"a", .tree, "s1"⟩] ∧
    (([⟨"a", .tree, "s1"⟩, ⟨"b.txt", .blob, "s2"⟩] : List TreeEntry).map
        TreeEntry.path).Nodup ∧
    buildTreeStructure [⟨"a", .tree, "s1"⟩, ⟨"b.txt", .blob, "s2"⟩] =
      buildTreeStructure [⟨"b.txt", .blob, "s2"⟩, ⟨"a", .tree, "s1"⟩] :=
  ⟨List.Perm.swap _ _ _, by decide,
    C6_permutation_invariance _ _ (List.Perm.swap _ _ _) (by decide)⟩

/-! ## Path splitting lemmas -/

/-- `split` never yields an empty list of groups. -/
theorem splitChars_ne_nil (sep : Char) : ∀ l, splitChars sep l ≠ []
  | [] => by simp [splitChars]
  | c :: cs => by
    unfold splitChars
    by_cases h : c = sep
    · simp [h]
    · simp only [h, if_false]
      cases hs : splitChars sep cs <;> simp

/-- Unfolding of `joinChars` on a two-or-more element list. -/
theorem joinChars_cons_cons (sep : Char) (g g2 : List Char) (gs : List (List Char)) :
    joinChars sep (g :: g2 :: gs) = g ++ sep :: joinChars sep (g2 :: gs) := rfl

/-- `join` undoes `split`. -/
theorem joinChars_split (sep : Char) : ∀ l, joinChars sep (splitChars sep l) = l
  | [] => rfl
  | c :: cs => by
    have ih := joinChars_split sep cs
    unfold splitChars
    by_cases h : c = sep
    · subst h
      rw [if_pos rfl]
      cases hs : splitChars c cs with
      | nil => exact absurd hs (splitChars_ne_nil c cs)
      | cons g gs =>
        rw [hs] at ih
        rw [joinChars_cons_cons]
        simpa using ih
    · simp only [if_neg h]
      cases hs : splitChars sep cs with
      | nil => exact absurd hs (splitChars_ne_nil sep cs)
      | cons g gs =>
        rw [hs] at ih
        cases gs with
        | nil =>
          simp only [joinChars] at ih ⊢
          rw [ih]
        | cons g2 gs2 =>
          rw [joinChars_cons_cons]
          rw [joinChars_cons_cons] at ih
          simp [ih]

/-- Appending one more group to a non-empty group list appends a separator
and the group. -/
theorem joinChars_concat (sep : Char) : ∀ (gs : List (List Char)) (g : List Char),
    gs ≠ [] → joinChars sep (gs ++ [g]) = joinChars sep gs ++ sep :: g
  | [], _, h => absurd rfl h
  | [a], g, _ => by simp [joinChars_cons_cons, joinChars]
  | a :: b :: t, g, _ => by
    have ih := joinChars_concat sep (b :: t) g (by simp)
    have hx : (a :: b :: t) ++ [g] = a :: (b :: (t ++ [g])) := rfl
    rw [hx, joinChars_cons_cons]
    have hy : (b :: t) ++ [g] = b :: (t ++ [g]) := rfl
    rw [hy] at ih
    rw [ih, joinChars_cons_cons]
    simp

/-- The data of the parent path is the join of all but the last segment. -/
theorem parentPathOf_data (p : String) :
    (parentPathOf p).data = joinChars '/' ((splitChars '/' p.data).dropLast) := rfl

/-- A non-root entry path is strictly longer than its parent path. -/
theorem parent_length_lt {p : String} (h : isRootEntry p = false) :
    (parentPathOf p).data.length < p.data.length := by
  have hne : splitChars '/' p.data ≠ [] := splitChars_ne_nil '/' p.data
  have hdne : (splitChars '/' p.data).dropLast ≠ [] := by
    intro hc
    simp [isRootEntry, hc] at h
  have hsplit : (splitChars '/' p.data).dropLast ++
      [(splitChars '/' p.data).getLast hne] = splitChars '/' p.data :=
    List.dropLast_append_getLast hne
  have hjoin : p.data = joinChars '/' ((splitChars '/' p.data).dropLast) ++
      '/' :: (splitChars '/' p.data).getLast hne := by
    conv_lhs => rw [← joinChars_split '/' p.data, ← hsplit]
    exact joinChars_concat '/' _ _ hdne
  rw [parentPathOf_data]
  conv_rhs => rw [hjoin]
  simp

/-- A non-root entry path differs from its parent path. -/
theorem parentPathOf_ne {p : String} (h : isRootEntry p = false) :
    ¬ parentPathOf p = p := by
  intro hc
  have hlt := parent_length_lt h
  rw [hc] at hlt
  exact lt_irrefl _ hlt

/-! ## Map lookup lemmas -/

/-- A non-matching head binding is skipped. -/
theorem lookupIdx_cons_ne (m : List (String × Nat)) (key p : String) (i : Nat)
    (h : ¬ p = key) : lookupIdx ((p, i) :: m) key = lookupIdx m key := by
  have : ((p, i).1 == key) = false := by simpa using h
  simp [lookupIdx, List.find?_cons, this]

/-- A matching head binding wins (the most recent write). -/
theorem lookupIdx_cons_self (m : List (String × Nat)) (key : String) (i : Nat) :
    lookupIdx ((key, i) :: m) key = some i := by
  simp [lookupIdx, List.find?_cons]

/-- Consing a binding preserves definedness of any lookup. -/
theorem lookupIdx_cons_isSome (m : List (String × Nat)) (key p : String) (i : Nat)
    (h : (lookupIdx m key).isSome = true) :
    (lookupIdx ((p, i) :: m) key).isSome = true := by
  by_cases hp : p = key
  · subst hp; rw [lookupIdx_cons_self]; rfl
  · rw [lookupIdx_cons_ne m key p i hp]; exact h

/-! ## Shapes of one loop iteration -/

/-- A root-path entry is pushed onto `root`. -/
theorem addEntry_root (st : BuildState) (e : TreeEntry)
    (h : isRootEntry e.path = true) :
    addEntry st e = ⟨st.nodes ++ [mkStored e], st.rootIdx ++ [st.nodes.length],
      (e.path, st.nodes.length) :: st.pathIdx⟩ := by
  simp [addEntry, h]

/-- An orphan (parent absent from the map) is pushed onto `root`. -/
theorem addEntry_orphan (st : BuildState) (e : TreeEntry)
    (h : isRootEntry e.path = false)
    (hl : lookupIdx ((e.path, st.nodes.length) :: st.pathIdx)
      (parentPathOf e.path) = none) :
    addEntry st e = ⟨st.nodes ++ [mkStored e], st.rootIdx ++ [st.nodes.length],
      (e.path, st.nodes.length) :: st.pathIdx⟩ := by
  simp [addEntry, h, hl]

/-- A found parent with a children container receives the new index. -/
theorem addEntry_child (st : BuildState) (e : TreeEntry) (j : Nat) (pn : StoredNode)
    (cs : List Nat) (h : isRootEntry e.path = false)
    (hl : lookupIdx ((e.path, st.nodes.length) :: st.pathIdx)
      (parentPathOf e.path) = some j)
    (hn : (st.nodes ++ [mkStored e])[j]? = some pn)
    (hc : pn.children = some cs) :
    addEntry st e = ⟨(st.nodes ++ [mkStored e]).set j
        { pn with children := some (cs ++ [st.nodes.length]) },
      st.rootIdx, (e.path, st.nodes.length) :: st.pathIdx⟩ := by
  simp [addEntry, h, hl, hn, hc]

/-- A found parent without a children container drops the new node
(the optional chaining is a no-op). -/
theorem addEntry_drop (st : BuildState) (e : TreeEntry) (j : Nat) (pn : StoredNode)
    (h : isRootEntry e.path = false)
    (hl : lookupIdx ((e.path, st.nodes.length) :: st.pathIdx)
      (parentPathOf e.path) = some j)
    (hn : (st.nodes ++ [mkStored e])[j]? = some pn)
    (hc : pn.children = none) :
    addEntry st e = ⟨st.nodes ++ [mkStored e], st.rootIdx,
      (e.path, st.nodes.length) :: st.pathIdx⟩ := by
  simp [addEntry, h, hl, hn, hc]

/-- A found parent index outside the store leaves the node unplaced (cannot
happen for reachable states; listed for exhaustiveness). -/
theorem addEntry_dangling (st : BuildState) (e : TreeEntry) (j : Nat)
    (h : isRootEntry e.path = false)
    (hl : lookupIdx ((e.path, st.nodes.length) :: st.pathIdx)
      (parentPathOf e.path) = some j)
    (hn : (st.nodes ++ [mkStored e])[j]? = none) :
    addEntry st e = ⟨st.nodes ++ [mkStored e], st.rootIdx,
      (e.path, st.nodes.length) :: st.pathIdx⟩ := by
  simp [addEntry, h, hl, hn]

/-- Indexing into a list extended by one element. -/
theorem getElem?_append_single {α : Type} (l : List α) (x : α) (i : Nat) :
    (l ++ [x])[i]? = if i < l.length then l[i]?
      else if i = l.length then some x else none := by
  rcases lt_trichotomy i l.length with h | h | h
  · simp [List.getElem?_append_left h, h]
  · subst h
    simp [List.getElem?_concat_length]
  · rw [List.getElem?_append_right (le_of_lt h)]
    have h1 : ¬ i < l.length := Nat.lt_asymm h
    have h2 : ¬ i = l.length := by omega
    have h3 : ([x] : List α).length ≤ i - l.length := by simp; omega
    simp [h1, h2, List.getElem?_eq_none h3]

/-! ## Store invariants -/

/-- Invariants of the loop state after processing the entries of `pre`, in
order: the store holds one record per entry with the entry's fields; a
children container exists exactly on directory records and holds only
strictly larger, in-range indices in increasing order; the `root` array holds
in-range indices in increasing order; and the path map binds exactly the
processed paths to the indices of their records. -/
structure StInv (pre : List TreeEntry) (st : BuildState) : Prop where
  len : st.nodes.length = pre.length
  nodeField : ∀ (i : Nat) (e : TreeEntry), pre[i]? = some e →
    ∃ sn : StoredNode, st.nodes[i]? = some sn ∧
      sn.path = e.path ∧ sn.type = e.type ∧ sn.sha = e.sha ∧
      sn.name = fileNameOf e.path
  childIffTree : ∀ (i : Nat) (sn : StoredNode), st.nodes[i]? = some sn →
    (sn.children.isSome = true ↔ sn.type = EntryType.tree)
  childBound : ∀ (i : Nat) (sn : StoredNode) (cs : List Nat),
    st.nodes[i]? = some sn → sn.children = some cs →
    ∀ c ∈ cs, i < c ∧ c < st.nodes.length
  childSorted : ∀ (i : Nat) (sn : StoredNode) (cs : List Nat),
    st.nodes[i]? = some sn → sn.children = some cs → cs.Pairwise (· < ·)
  rootBound : ∀ i ∈ st.rootIdx, i < st.nodes.length
  rootSorted : st.rootIdx.Pairwise (· < ·)
  lookupSound : ∀ (q : String) (j : Nat), lookupIdx st.pathIdx q = some j →
    ∃ e : TreeEntry, pre[j]? = some e ∧ e.path = q
  lookupComplete : ∀ (i : Nat) (e : TreeEntry), pre[i]? = some e →
    (lookupIdx st.pathIdx e.path).isSome = true

/-- The empty state satisfies the invariants for the empty prefix. -/
theorem stInv_init : StInv [] initState := by
  refine ⟨rfl, ?_, ?_, ?_, ?_, ?_, ?_, ?_, ?_⟩ <;>
    simp [initState, lookupIdx]

/-- Shared part of invariant preservation: the extended store and path map
(everything except the `root` array and a possible parent update). -/
theorem stInv_core {pre : List TreeEntry} {st : BuildState} (e : TreeEntry)
    (h : StInv pre st) :
    ((st.nodes ++ [mkStored e]).length = (pre ++ [e]).length) ∧
    (∀ (i : Nat) (e' : TreeEntry), (pre ++ [e])[i]? = some e' →
      ∃ sn : StoredNode, (st.nodes ++ [mkStored e])[i]? = some sn ∧
        sn.path = e'.path ∧ sn.type = e'.type ∧ sn.sha = e'.sha ∧
        sn.name = fileNameOf e'.path) ∧
    (∀ (i : Nat) (sn : StoredNode), (st.nodes ++ [mkStored e])[i]? = some sn →
      (sn.children.isSome = true ↔ sn.type = EntryType.tree)) ∧
    (∀ (i : Nat) (sn : StoredNode) (cs : List Nat),
      (st.nodes ++ [mkStored e])[i]? = some sn → sn.children = some cs →
      ∀ c ∈ cs, i < c ∧ c < (st.nodes ++ [mkStored e]).length) ∧
    (∀ (i : Nat) (sn : StoredNode) (cs : List Nat),
      (st.nodes ++ [mkStored e])[i]? = some sn → sn.children = some cs →
      cs.Pairwise (· < ·)) ∧
    (∀ (q : String) (j : Nat),
      lookupIdx ((e.path, st.nodes.length) :: st.pathIdx) q = some j →
      ∃ e' : TreeEntry, (pre ++ [e])[j]? = some e' ∧ e'.path = q) ∧
    (∀ (i : Nat) (e' : TreeEntry), (pre ++ [e])[i]? = some e' →
      (lookupIdx ((e.path, st.nodes.length) :: st.pathIdx) e'.path).isSome = true) := by
  have hk := h.len
  refine ⟨by simp [hk], ?_, ?_, ?_, ?_, ?_, ?_⟩
  · intro i e' he'
    rw [getElem?_append_single] at he' ⊢
    rw [hk]
    split at he'
    · next hi =>
      rw [if_pos (by omega)]
      exact h.nodeField i e' he'
    · split at he'
      · next h1 h2 =>
        rw [if_neg (by omega), if_pos (by omega)]
        cases he'
        exact ⟨mkStored e, rfl, rfl, rfl, rfl, rfl⟩
      · exact absurd he' (by simp)
  · intro i sn hsn
    rw [getElem?_append_single] at hsn
    split at hsn
    · exact h.childIffTree i sn hsn
    · split at hsn
      · cases hsn
        unfold mkStored
        cases e.type <;> simp
      · exact absurd hsn (by simp)
  · intro i sn cs hsn hcs c hc
    rw [getElem?_append_single] at hsn
    split at hsn
    · next hi =>
      have := h.childBound i sn cs hsn hcs c hc
      constructor
      · exact this.1
      · simp; omega
    · split at hsn
      · cases hsn
        unfold mkStored at hcs
        split at hcs
        · cases hcs; simp at hc
        · cases hcs
      · exact absurd hsn (by simp)
  · intro i sn cs hsn hcs
    rw [getElem?_append_single] at hsn
    split at hsn
    · exact h.childSorted i sn cs hsn hcs
    · split at hsn
      · cases hsn
        unfold mkStored at hcs
        split at hcs
        · cases hcs; simp
        · cases hcs
      · exact absurd hsn (by simp)
  · intro q j hq
    by_cases hqe : e.path = q
    · subst hqe
      rw [lookupIdx_cons_self] at hq
      cases hq
      refine ⟨e, ?_, rfl⟩
      rw [getElem?_append_single, hk]
      rw [if_neg (by omega), if_pos (by omega)]
    · rw [lookupIdx_cons_ne _ _ _ _ hqe] at hq
      obtain ⟨e', he', hpe'⟩ := h.lookupSound q j hq
      have hj : j < pre.length := (List.getElem?_eq_some.mp he').1
      refine ⟨e', ?_, hpe'⟩
      rw [getElem?_append_single, if_pos (by omega)]
      exact he'
  · intro i e' he'
    rw [getElem?_append_single] at he'
    split at he'
    · next hi =>
      apply lookupIdx_cons_isSome
      exact h.lookupComplete i e' he'
    · split at he'
      · cases he'
        rw [lookupIdx_cons_self]
        rfl
      · exact absurd he' (by simp)

/-- Invariant preservation when the new node is pushed onto `root`. -/
theorem stInv_aux_root {pre : List TreeEntry} {st : BuildState} (e : TreeEntry)
    (h : StInv pre st) :
    StInv (pre ++ [e]) ⟨st.nodes ++ [mkStored e],
      st.rootIdx ++ [st.nodes.length], (e.path, st.nodes.length) :: st.pathIdx⟩ := by
  obtain ⟨c1, c2, c3, c4, c5, c6, c7⟩ := stInv_core e h
  refine ⟨c1, c2, c3, c4, c5, ?_, ?_, c6, c7⟩
  · intro i hi
    simp only [List.mem_append, List.mem_singleton] at hi
    rcases hi with hi | hi
    · have := h.rootBound i hi
      simp; omega
    · subst hi; simp
  · rw [List.pairwise_append]
    refine ⟨h.rootSorted, List.pairwise_singleton _ _, ?_⟩
    intro a ha b hb
    simp only [List.mem_singleton] at hb
    subst hb
    exact h.rootBound a ha

/-- Invariant preservation when the new node stays unplaced (dropped). -/
theorem stInv_aux_unplaced {pre : List TreeEntry} {st : BuildState} (e : TreeEntry)
    (h : StInv pre st) :
    StInv (pre ++ [e]) ⟨st.nodes ++ [mkStored e],
      st.rootIdx, (e.path, st.nodes.length) :: st.pathIdx⟩ := by
  obtain ⟨c1, c2, c3, c4, c5, c6, c7⟩ := stInv_core e h
  refine ⟨c1, c2, c3, c4, c5, ?_, h.rootSorted, c6, c7⟩
  intro i hi
  have := h.rootBound i hi
  simp; omega

/-- Invariant preservation when the new index is pushed into the children of
a found directory parent. -/
theorem stInv_aux_child {pre : List TreeEntry} {st : BuildState} (e : TreeEntry)
    (j : Nat) (pn : StoredNode) (cs : List Nat) (h : StInv pre st)
    (hj : j < st.nodes.length) (hn : st.nodes[j]? = some pn)
    (hc : pn.children = some cs) :
    StInv (pre ++ [e]) ⟨(st.nodes ++ [mkStored e]).set j
        { pn with children := some (cs ++ [st.nodes.length]) },
      st.rootIdx, (e.path, st.nodes.length) :: st.pathIdx⟩ := by
  obtain ⟨c1, c2, c3, c4, c5, c6, c7⟩ := stInv_core e h
  have hnj : (st.nodes ++ [mkStored e])[j]? = some pn := by
    rw [List.getElem?_append_left hj]; exact hn
  have hlen : ((st.nodes ++ [mkStored e]).set j
      { pn with children := some (cs ++ [st.nodes.length]) }).length =
      st.nodes.length + 1 := by simp
  have hget : ∀ i : Nat, ((st.nodes ++ [mkStored e]).set j
      { pn with children := some (cs ++ [st.nodes.length]) })[i]? =
      if j = i then some { pn with children := some (cs ++ [st.nodes.length]) }
      else (st.nodes ++ [mkStored e])[i]? := by
    intro i
    rw [List.getElem?_set]
    split
    · next hje =>
      rw [if_pos (by simp; omega)]
    · rfl
  refine ⟨?_, ?_, ?_, ?_, ?_, ?_, h.rootSorted, c6, c7⟩
  · rw [hlen]; simp [h.len]
  · intro i e' he'
    obtain ⟨sn, hsn, hrest⟩ := c2 i e' he'
    rw [hget]
    by_cases hji : j = i
    · subst hji
      rw [hnj] at hsn
      cases hsn
      rw [if_pos rfl]
      exact ⟨_, rfl, hrest⟩
    · rw [if_neg hji]
      exact ⟨sn, hsn, hrest⟩
  · intro i sn hsn
    rw [hget] at hsn
    by_cases hji : j = i
    · rw [if_pos hji] at hsn
      cases hsn
      have := c3 j pn hnj
      simp only [StoredNode.children] at this ⊢
      simp [hc] at this
      simpa using this
    · rw [if_neg hji] at hsn
      exact c3 i sn hsn
  · intro i sn cs' hsn hcs' c hcmem
    rw [hget] at hsn
    rw [hlen]
    by_cases hji : j = i
    · rw [if_pos hji] at hsn
      subst hji
      cases hsn
      simp only at hcs'
      cases hcs'
      rcases List.mem_append.mp hcmem with hcm | hcm
      · have := h.childBound j pn cs hn hc c hcm
        omega
      · simp only [List.mem_singleton] at hcm
        subst hcm
        omega
    · rw [if_neg hji] at hsn
      have := c4 i sn cs' hsn hcs' c hcmem
      simp at this
      omega
  · intro i sn cs' hsn hcs'
    rw [hget] at hsn
    by_cases hji : j = i
    · rw [if_pos hji] at hsn
      cases hsn
      simp only at hcs'
      cases hcs'
      rw [List.pairwise_append]
      refine ⟨h.childSorted i pn cs (hji ▸ hn) hc, List.pairwise_singleton _ _, ?_⟩
      intro a ha b hb
      simp only [List.mem_singleton] at hb
      subst hb
      exact (h.childBound i pn cs (hji ▸ hn) hc a ha).2
    · rw [if_neg hji] at hsn
      exact c5 i sn cs' hsn hcs'
  · intro i hi
    have := h.rootBound i hi
    rw [hlen]; omega

/-- Every `addEntry` step preserves the invariants. -/
theorem stInv_addEntry {pre : List TreeEntry} {st : BuildState} (e : TreeEntry)
    (h : StInv pre st) : StInv (pre ++ [e]) (addEntry st e) := by
  by_cases hroot : isRootEntry e.path
  · rw [addEntry_root st e hroot]
    exact stInv_aux_root e h
  · rw [Bool.not_eq_true] at hroot
    have hne : ¬ parentPathOf e.path = e.path := parentPathOf_ne hroot
    cases hl : lookupIdx ((e.path, st.nodes.length) :: st.pathIdx)
        (parentPathOf e.path) with
    | none =>
      rw [addEntry_orphan st e hroot hl]
      exact stInv_aux_root e h
    | some j =>
      rw [lookupIdx_cons_ne _ _ _ _ (fun hc => hne hc.symm)] at hl
      obtain ⟨e', he', -⟩ := h.lookupSound _ j hl
      have hj : j < pre.length := (List.getElem?_eq_some.mp he').1
      have hj' : j < st.nodes.length := by rw [h.len]; omega
      obtain ⟨pn, hpn, -⟩ := h.nodeField j e' he'
      have hl' : lookupIdx ((e.path, st.nodes.length) :: st.pathIdx)
          (parentPathOf e.path) = some j := by
        rw [lookupIdx_cons_ne _ _ _ _ (fun hc => hne hc.symm)]
        exact hl
      have hnj : (st.nodes ++ [mkStored e])[j]? = some pn := by
        rw [List.getElem?_append_left hj']; exact hpn
      cases hc : pn.children with
      | none =>
        rw [addEntry_drop st e j pn hroot hl' hnj hc]
        exact stInv_aux_unplaced e h
      | some cs =>
        rw [addEntry_child st e j pn cs hroot hl' hnj hc]
        exact stInv_aux_child e j pn cs h hj' hpn hc

/-- The invariants hold along any fold of `addEntry`. -/
theorem stInv_fold_go : ∀ (l pre : List TreeEntry) (st : BuildState),
    StInv pre st → StInv (pre ++ l) (l.foldl addEntry st)
  | [], pre, st, h => by simpa using h
  | e :: t, pre, st, h => by
    have h1 := stInv_addEntry e h
    have h2 := stInv_fold_go t (pre ++ [e]) (addEntry st e) h1
    simpa using h2

/-- The invariants hold for the state of the full pass. -/
theorem stInv_fold (l : List TreeEntry) : StInv l (l.foldl addEntry initState) := by
  have := stInv_fold_go l [] initState stInv_init
  simpa using this

/-! ## Sibling ordering (claim C7) -/

/-- Materialisation preserves the stored `path` and `type` fields. -/
theorem toNode_field (ns : List StoredNode) (fuel i : Nat) (sn : StoredNode)
    (h : ns[i]? = some sn) :
    (toNode ns fuel i).path = sn.path ∧ (toNode ns fuel i).type = sn.type := by
  cases fuel <;> simp [toNode, h, TreeNode.path, TreeNode.type]

/-- The empty forest passes the sibling-order check at any depth. -/
theorem siblingsSortedB_nil : ∀ F : Nat, siblingsSortedB F [] = true
  | 0 => rfl
  | _ + 1 => rfl

/-- The comparator transfers from entries to their materialised nodes. -/
theorem nodeLeB_of_entryLe {e₁ e₂ : TreeEntry} (hle : entryLe e₁ e₂)
    {n₁ n₂ : TreeNode} (h₁p : n₁.path = e₁.path) (h₁t : n₁.type = e₁.type)
    (h₂p : n₂.path = e₂.path) (h₂t : n₂.type = e₂.type) : nodeLeB n₁ n₂ = true := by
  unfold entryLe entryLeB at hle
  unfold nodeLeB
  rw [h₁p, h₁t, h₂p, h₂t]
  exact hle

/-- Two in-range store indices in increasing order materialise to nodes in
the mandated sibling order, provided the processed list was sorted. -/
theorem nodeLeB_store {l : List TreeEntry} {st : BuildState}
    (hinv : StInv l st) (hsorted : l.Sorted entryLe) (fuelT : Nat)
    {i₁ i₂ : Nat} (h1 : i₁ < st.nodes.length) (h2 : i₂ < st.nodes.length)
    (hlt : i₁ < i₂) :
    nodeLeB (toNode st.nodes fuelT i₁) (toNode st.nodes fuelT i₂) = true := by
  have hl1 : i₁ < l.length := by rw [← hinv.len]; exact h1
  have hl2 : i₂ < l.length := by rw [← hinv.len]; exact h2
  obtain ⟨sn₁, hsn₁, hp₁, ht₁, -, -⟩ :=
    hinv.nodeField i₁ (l.get ⟨i₁, hl1⟩) (by rw [List.getElem?_eq_getElem hl1]; rfl)
  obtain ⟨sn₂, hsn₂, hp₂, ht₂, -, -⟩ :=
    hinv.nodeField i₂ (l.get ⟨i₂, hl2⟩) (by rw [List.getElem?_eq_getElem hl2]; rfl)
  have hle : entryLe (l.get ⟨i₁, hl1⟩) (l.get ⟨i₂, hl2⟩) :=
    List.pairwise_iff_getElem.mp hsorted i₁ i₂ hl1 hl2 hlt
  obtain ⟨hq₁, hr₁⟩ := toNode_field st.nodes fuelT i₁ sn₁ hsn₁
  obtain ⟨hq₂, hr₂⟩ := toNode_field st.nodes fuelT i₂ sn₂ hsn₂
  exact nodeLeB_of_entryLe hle (hq₁.trans hp₁) (hr₁.trans ht₁)
    (hq₂.trans hp₂) (hr₂.trans ht₂)

/-- The adjacency check holds on any increasing in-range index list. -/
theorem chainLeB_sorted_map {l : List TreeEntry} {st : BuildState}
    (hinv : StInv l st) (hsorted : l.Sorted entryLe) (fuelT : Nat) :
    ∀ (idxs : List Nat), (∀ i ∈ idxs, i < st.nodes.length) →
      idxs.Pairwise (· < ·) →
      chainLeB (idxs.map (toNode st.nodes fuelT)) = true
  | [] => fun _ _ => rfl
  | [_] => fun _ _ => rfl
  | i₁ :: i₂ :: rest => by
    intro hbound hp
    have h12 : i₁ < i₂ := (List.pairwise_cons.mp hp).1 i₂ (by simp)
    have hrec := chainLeB_sorted_map hinv hsorted fuelT (i₂ :: rest)
      (fun i hi => hbound i (List.mem_cons_of_mem _ hi))
      (List.Pairwise.of_cons hp)
    have hle := nodeLeB_store hinv hsorted fuelT
      (hbound i₁ (by simp)) (hbound i₂ (by simp)) h12
    simp only [List.map_cons, chainLeB, Bool.and_eq_true]
    exact ⟨hle, by simpa using hrec⟩

/-- Siblings at every level of the materialised forest of any increasing
in-range index list are in the mandated order. -/
theorem siblingsSorted_store {l : List TreeEntry} {st : BuildState}
    (hinv : StInv l st) (hsorted : l.Sorted entryLe) :
    ∀ (F fuelT : Nat) (idxs : List Nat),
      (∀ i ∈ idxs, i < st.nodes.length) → idxs.Pairwise (· < ·) →
      siblingsSortedB F (idxs.map (toNode st.nodes fuelT)) = true := by
  intro F
  induction F with
  | zero => intro _ _ _ _; rfl
  | succ F ih =>
    intro fuelT idxs hbound hps
    unfold siblingsSortedB
    rw [Bool.and_eq_true]
    refine ⟨chainLeB_sorted_map hinv hsorted fuelT idxs hbound hps, ?_⟩
    rw [List.all_eq_true]
    intro n hn
    rw [List.mem_map] at hn
    obtain ⟨i, hi, hni⟩ := hn
    have hilt : i < st.nodes.length := hbound i hi
    have hsome : ∃ sn : StoredNode, st.nodes[i]? = some sn := by
      rw [List.getElem?_eq_getElem hilt]
      exact ⟨_, rfl⟩
    obtain ⟨sn, hsn⟩ := hsome
    subst hni
    cases fuelT with
    | zero =>
      simp only [toNode, hsn, TreeNode.children]
      cases sn.children with
      | none => rfl
      | some cs => simpa using siblingsSortedB_nil F
    | succ fT =>
      simp only [toNode, hsn, TreeNode.children]
      cases hcs : sn.children with
      | none => rfl
      | some cs =>
        simp only [Option.map_some']
        exact ih fT cs (fun c hc => (hinv.childBound i sn cs hsn hcs c hc).2)
          (hinv.childSorted i sn cs hsn hcs)

/-- **C7.** In the output of `buildTreeStructure`, siblings at every level
(including the root list) are ordered directories-before-files and within
the same type lexicographically by full path; in particular, for input
entries `["z.txt" (blob), "a" (tree), "m.txt" (blob)]` the root order is
`["a", "m.txt", "z.txt"]`. -/
theorem C7_sibling_order :
    (∀ items : List TreeEntry,
      siblingsSortedB (items.length + 1) (buildTreeStructure items) = true) ∧
    (buildTreeStructure [⟨"z.txt", .blob, "s1"⟩, ⟨"a", .tree, "s2"⟩,
        ⟨"m.txt", .blob, "s3"⟩]).map TreeNode.path = ["a", "m.txt", "z.txt"] := by
  constructor
  · intro items
    have hinv := stInv_fold (sortEntries items)
    have hsorted : (sortEntries items).Sorted entryLe :=
      List.sorted_insertionSort entryLe items
    exact siblingsSorted_store hinv hsorted _ _ _ hinv.rootBound hinv.rootSorted
  · decide

/-! ## Counting node paths (claim C1) -/

/-- Flattening an out-of-range index at fuel zero. -/
theorem flat_zero_none (ns : List StoredNode) (i : Nat) (h : ns[i]? = none) :
    flat ns 0 i = [""] := by
  simp [flat, toNode, nodePaths, h, TreeNode.path]

/-- Flattening an in-range index at fuel zero yields the bare path. -/
theorem flat_zero_some (ns : List StoredNode) (i : Nat) (n : StoredNode)
    (h : ns[i]? = some n) : flat ns 0 i = [n.path] := by
  simp [flat, toNode, nodePaths, h, TreeNode.path]

/-- Flattening an out-of-range index at positive fuel. -/
theorem flat_succ_none (ns : List StoredNode) (fuel i : Nat) (h : ns[i]? = none) :
    flat ns (fuel + 1) i = [""] := by
  simp [flat, toNode, nodePaths, h, TreeNode.path, TreeNode.children]

/-- Flattening a childless record at positive fuel yields the bare path. -/
theorem flat_succ_child_none (ns : List StoredNode) (fuel i : Nat)
    (n : StoredNode) (h : ns[i]? = some n) (hc : n.children = none) :
    flat ns (fuel + 1) i = [n.path] := by
  simp [flat, toNode, nodePaths, h, hc, TreeNode.path, TreeNode.children]

/-- Flattening a record with children at positive fuel: the path followed by
the children's flattenings. -/
theorem flat_succ_child_some (ns : List StoredNode) (fuel i : Nat)
    (n : StoredNode) (cs : List Nat) (h : ns[i]? = some n)
    (hc : n.children = some cs) :
    flat ns (fuel + 1) i = n.path :: cs.flatMap (flat ns fuel) := by
  simp only [flat, toNode, nodePaths, h, hc, Option.map_some', TreeNode.path,
    TreeNode.children, List.flatMap_map]
  rfl

/-- A freshly created node flattens to its own path only, at any fuel. -/
theorem flat_mkStored (ns : List StoredNode) (e : TreeEntry) (i : Nat)
    (h : ns[i]? = some (mkStored e)) : ∀ fuel : Nat, flat ns fuel i = [e.path]
  | 0 => flat_zero_some ns i (mkStored e) h
  | fuel + 1 => by
    cases he : e.type with
    | tree =>
      have hc : (mkStored e).children = some [] := by simp [mkStored, he]
      rw [flat_succ_child_some ns fuel i (mkStored e) [] h hc]
      rfl
    | blob =>
      have hc : (mkStored e).children = none := by simp [mkStored, he]
      rw [flat_succ_child_none ns fuel i (mkStored e) h hc]
      rfl

/-- Pointwise-equal functions flatten lists equally. -/
theorem flatMap_congr {α β : Type} {l : List α} {f g : α → List β}
    (h : ∀ a ∈ l, f a = g a) : l.flatMap f = l.flatMap g := by
  induction l with
  | nil => rfl
  | cons a t ih =>
    simp only [List.flatMap_cons]
    rw [h a (by simp), ih (fun x hx => h x (by simp [hx]))]

/-- Appending a fresh record to the store does not change the flattening of
any existing subtree (child references stay within the old store). -/
theorem flat_append {ns : List StoredNode} (x : StoredNode)
    (hb : ∀ (i : Nat) (sn : StoredNode) (cs : List Nat), ns[i]? = some sn →
      sn.children = some cs → ∀ c ∈ cs, c < ns.length) :
    ∀ (fuel i : Nat), i < ns.length → flat (ns ++ [x]) fuel i = flat ns fuel i
  | 0, i, hi => by
    have hlt : i < ns.length := hi
    cases h : ns[i]? with
    | none =>
      rw [flat_zero_none _ _ (by rw [List.getElem?_append_left hi]; exact h),
        flat_zero_none _ _ h]
    | some sn =>
      rw [flat_zero_some _ _ sn (by rw [List.getElem?_append_left hi]; exact h),
        flat_zero_some _ _ sn h]
  | fuel + 1, i, hi => by
    cases h : ns[i]? with
    | none =>
      rw [flat_succ_none _ _ _ (by rw [List.getElem?_append_left hi]; exact h),
        flat_succ_none _ _ _ h]
    | some sn =>
      cases hc : sn.children with
      | none =>
        rw [flat_succ_child_none _ _ _ sn (by rw [List.getElem?_append_left hi]; exact h) hc,
          flat_succ_child_none _ _ _ sn h hc]
      | some cs =>
        rw [flat_succ_child_some _ _ _ sn cs (by rw [List.getElem?_append_left hi]; exact h) hc,
          flat_succ_child_some _ _ _ sn cs h hc]
        congr 1
        apply flatMap_congr
        intro c hcmem
        exact flat_append x hb fuel c (hb i sn cs h hc c hcmem)

/-- Pushing the fresh index into the children of directory record `j` adds
one occurrence of the new entry's path below every occurrence of `j`'s path
and changes no other path count, in any subtree of the old store.  The
updated store is the old store extended with the fresh record and updated at
`j`. -/
theorem flat_childPush_count {ns : List StoredNode} (e : TreeEntry) {j : Nat}
    {pj : StoredNode} {cs : List Nat}
    (hb : ∀ (i : Nat) (sn : StoredNode) (cs' : List Nat), ns[i]? = some sn →
      sn.children = some cs' → ∀ c ∈ cs', i < c ∧ c < ns.length)
    (hnodup : ∀ (i₁ i₂ : Nat) (sn₁ sn₂ : StoredNode), ns[i₁]? = some sn₁ →
      ns[i₂]? = some sn₂ → ¬ i₁ = i₂ → ¬ sn₁.path = sn₂.path)
    (hj : j < ns.length) (hpj : ns[j]? = some pj) (hcs : pj.children = some cs)
    (q : String) :
    ∀ (fuel i : Nat), i < ns.length → ns.length + 1 ≤ fuel + i →
      (flat ((ns ++ [mkStored e]).set j
          { pj with children := some (cs ++ [ns.length]) }) fuel i).count q
        = (flat ns fuel i).count q +
          (flat ns fuel i).count pj.path * List.count q [e.path]
  | 0, _, hi, hfuel => by omega
  | fuel + 1, i, hi, hfuel => by
    have hlen' : ((ns ++ [mkStored e]).set j
        { pj with children := some (cs ++ [ns.length]) }).length = ns.length + 1 := by
      simp
    have hget_j : ((ns ++ [mkStored e]).set j
        { pj with children := some (cs ++ [ns.length]) })[j]? =
        some { pj with children := some (cs ++ [ns.length]) } :=
      List.getElem?_set_self (by simp; omega)
    have hget_ne : ∀ m : Nat, ¬ j = m →
        ((ns ++ [mkStored e]).set j
          { pj with children := some (cs ++ [ns.length]) })[m]? =
        (ns ++ [mkStored e])[m]? := fun m hm => List.getElem?_set_ne hm
    have hget_k : ((ns ++ [mkStored e]).set j
        { pj with children := some (cs ++ [ns.length]) })[ns.length]? =
        some (mkStored e) := by
      rw [hget_ne ns.length (by omega), List.getElem?_concat_length]
    have hflat_k := flat_mkStored _ e ns.length hget_k
    by_cases hij : i = j
    · subst hij
      have hchild : ({ pj with children := some (cs ++ [ns.length]) } :
          StoredNode).children = some (cs ++ [ns.length]) := rfl
      rw [flat_succ_child_some _ fuel i _ (cs ++ [ns.length]) hget_j hchild]
      rw [flat_succ_child_some ns fuel i pj cs hpj hcs]
      have hIH : ∀ c ∈ cs, (flat ((ns ++ [mkStored e]).set i
            { pj with children := some (cs ++ [ns.length]) }) fuel c).count q
          = (flat ns fuel c).count q +
            (flat ns fuel c).count pj.path * List.count q [e.path] := by
        intro c hcmem
        obtain ⟨hc1, hc2⟩ := hb i pj cs hpj hcs c hcmem
        exact flat_childPush_count e hb hnodup hj hpj hcs q fuel c hc2 (by omega)
      rw [List.flatMap_append]
      have hsingle : ([ns.length] : List Nat).flatMap
          (flat ((ns ++ [mkStored e]).set i
            { pj with children := some (cs ++ [ns.length]) }) fuel) = [e.path] := by
        simp [hflat_k fuel]
      rw [hsingle]
      simp only [List.count_cons, List.count_append, List.count_nil,
        List.count_flatMap, Function.comp_def, zero_add]
      rw [show cs.map (fun c => List.count q (flat ((ns ++ [mkStored e]).set i
            { pj with children := some (cs ++ [ns.length]) }) fuel c))
          = cs.map (fun c => List.count q (flat ns fuel c)
            + List.count pj.path (flat ns fuel c) * List.count q [e.path]) from
        List.map_congr_left (fun c hcmem => hIH c hcmem)]
      rw [List.sum_map_add, List.sum_map_mul_right]
      simp only [List.count_cons, List.count_nil, beq_self_eq_true, if_true, zero_add]
      ring
    · have hget_i : ((ns ++ [mkStored e]).set j
          { pj with children := some (cs ++ [ns.length]) })[i]? = ns[i]? := by
        rw [hget_ne i (fun hc => hij hc.symm), List.getElem?_append_left hi]
      have hsome : ∃ sn : StoredNode, ns[i]? = some sn := by
        rw [List.getElem?_eq_getElem hi]
        exact ⟨_, rfl⟩
      obtain ⟨sn, hsn⟩ := hsome
      have hpne : ¬ sn.path = pj.path := hnodup i j sn pj hsn hpj hij
      have hpneb : (sn.path == pj.path) = false := by
        simpa using hpne
      cases hc : sn.children with
      | none =>
        rw [flat_succ_child_none _ fuel i sn (hget_i.trans hsn) hc,
          flat_succ_child_none ns fuel i sn hsn hc]
        simp [List.count_singleton, hpneb]
      | some cs' =>
        rw [flat_succ_child_some _ fuel i sn cs' (hget_i.trans hsn) hc,
          flat_succ_child_some ns fuel i sn cs' hsn hc]
        have hIH : ∀ c ∈ cs', (flat ((ns ++ [mkStored e]).set j
              { pj with children := some (cs ++ [ns.length]) }) fuel c).count q
            = (flat ns fuel c).count q +
              (flat ns fuel c).count pj.path * List.count q [e.path] := by
          intro c hcmem
          obtain ⟨hc1, hc2⟩ := hb i sn cs' hsn hc c hcmem
          exact flat_childPush_count e hb hnodup hj hpj hcs q fuel c hc2 (by omega)
        simp only [List.count_cons, List.count_nil, List.count_flatMap,
          Function.comp_def, zero_add]
        rw [show cs'.map (fun c => List.count q (flat ((ns ++ [mkStored e]).set j
              { pj with children := some (cs ++ [ns.length]) }) fuel c))
            = cs'.map (fun c => List.count q (flat ns fuel c)
              + List.count pj.path (flat ns fuel c) * List.count q [e.path]) from
          List.map_congr_left (fun c hcmem => hIH c hcmem)]
        rw [List.sum_map_add, List.sum_map_mul_right]
        simp only [List.count_cons, List.count_nil, hpneb, if_false, zero_add,
          Bool.false_eq_true]
        ring

/-- Entries at distinct positions of a path-nodup list have distinct paths. -/
theorem nodup_paths_ne {pre : List TreeEntry}
    (hnd : (pre.map TreeEntry.path).Nodup) {i₁ i₂ : Nat} {e₁ e₂ : TreeEntry}
    (h₁ : pre[i₁]? = some e₁) (h₂ : pre[i₂]? = some e₂) (hne : ¬ i₁ = i₂) :
    ¬ e₁.path = e₂.path := by
  intro hc
  obtain ⟨hl₁, hv₁⟩ := List.getElem?_eq_some.mp h₁
  obtain ⟨hl₂, hv₂⟩ := List.getElem?_eq_some.mp h₂
  have hpw := List.pairwise_iff_getElem.mp hnd
  rcases lt_or_gt_of_ne hne with hlt | hgt
  · have := hpw i₁ i₂ (by simpa) (by simpa) hlt
    rw [List.getElem_map, List.getElem_map, hv₁, hv₂] at this
    exact this hc
  · have := hpw i₂ i₁ (by simpa) (by simpa) hgt
    rw [List.getElem_map, List.getElem_map, hv₁, hv₂] at this
    exact this hc.symm

/-- A well-formed entry list for the tree builder: pairwise-distinct paths,
and every entry that is the parent path of some other entry is a directory. -/
def GoodList (l : List TreeEntry) : Prop :=
  (l.map TreeEntry.path).Nodup ∧
  ∀ e ∈ l, ∀ pe ∈ l, pe.path = parentPathOf e.path → pe.type = EntryType.tree

instance : DecidablePred GoodList := fun l => by
  unfold GoodList
  infer_instance

/-- Path-count invariant of the loop: after processing any prefix of a
well-formed list, the multiset of node paths reachable from `root` is exactly
the multiset of processed entry paths — no entry is duplicated and none is
lost. -/
theorem forest_count_inv (l : List TreeEntry) (hgood : GoodList l) :
    ∀ (pre : List TreeEntry), pre <+: l → ∀ (fuel : Nat),
      pre.length + 1 ≤ fuel → ∀ (q : String),
      (((pre.foldl addEntry initState).rootIdx).flatMap
        (flat (pre.foldl addEntry initState).nodes fuel)).count q
      = (pre.map TreeEntry.path).count q := by
  intro pre
  induction pre using List.reverseRecOn with
  | nil =>
    intro _ _ _ q
    simp [initState]
  | append_singleton pre e ih =>
    intro hpre' fuel hfuel0 q0
    have hpre : pre <+: l := (List.prefix_append pre [e]).trans hpre'
    have hinv : StInv pre (pre.foldl addEntry initState) := stInv_fold pre
    have hk : (pre.foldl addEntry initState).nodes.length = pre.length := hinv.len
    have hfold : (pre ++ [e]).foldl addEntry initState =
        addEntry (pre.foldl addEntry initState) e := by
      rw [List.foldl_append]
      rfl
    have hfuel : pre.length + 2 ≤ fuel := by
      rw [List.length_append] at hfuel0
      simpa using hfuel0
    clear hfuel0
    rw [hfold]
    have hb2 := hinv.childBound
    have hb' : ∀ (i : Nat) (sn : StoredNode) (cs : List Nat),
        (pre.foldl addEntry initState).nodes[i]? = some sn →
        sn.children = some cs →
        ∀ c ∈ cs, c < (pre.foldl addEntry initState).nodes.length :=
      fun i sn cs h1 h2 c hc => (hb2 i sn cs h1 h2 c hc).2
    have hprenodup : (pre.map TreeEntry.path).Nodup :=
      List.Nodup.sublist (List.Sublist.map TreeEntry.path hpre.sublist) hgood.1
    have hrootcase : ((((pre.foldl addEntry initState).rootIdx ++
          [(pre.foldl addEntry initState).nodes.length]).flatMap
          (flat ((pre.foldl addEntry initState).nodes ++ [mkStored e]) fuel)).count q0
        = ((pre ++ [e]).map TreeEntry.path).count q0) := by
      rw [List.flatMap_append, List.count_append]
      have hroots : (pre.foldl addEntry initState).rootIdx.flatMap
          (flat ((pre.foldl addEntry initState).nodes ++ [mkStored e]) fuel)
          = (pre.foldl addEntry initState).rootIdx.flatMap
            (flat (pre.foldl addEntry initState).nodes fuel) := by
        apply flatMap_congr
        intro i hi
        exact flat_append (mkStored e) hb' fuel i (hinv.rootBound i hi)
      rw [hroots]
      have hk_flat : ([(pre.foldl addEntry initState).nodes.length] : List Nat).flatMap
          (flat ((pre.foldl addEntry initState).nodes ++ [mkStored e]) fuel)
          = [e.path] := by
        simp [flat_mkStored ((pre.foldl addEntry initState).nodes ++ [mkStored e])
          e (pre.foldl addEntry initState).nodes.length
          (List.getElem?_concat_length _ _) fuel]
      rw [hk_flat]
      rw [ih hpre fuel (by omega) q0]
      simp [List.map_append, List.count_append]
    by_cases hroot : isRootEntry e.path
    · rw [addEntry_root _ e hroot]
      exact hrootcase
    · rw [Bool.not_eq_true] at hroot
      have hne : ¬ parentPathOf e.path = e.path := parentPathOf_ne hroot
      cases hl : lookupIdx ((e.path, (pre.foldl addEntry initState).nodes.length) ::
          (pre.foldl addEntry initState).pathIdx) (parentPathOf e.path) with
      | none =>
        rw [addEntry_orphan _ e hroot hl]
        exact hrootcase
      | some j =>
        rw [lookupIdx_cons_ne _ _ _ _ (fun hc => hne hc.symm)] at hl
        obtain ⟨e', he', hpe'⟩ := hinv.lookupSound _ j hl
        have hj : j < pre.length := (List.getElem?_eq_some.mp he').1
        have hj' : j < (pre.foldl addEntry initState).nodes.length := by omega
        obtain ⟨pn, hpn, hpnpath, hpntype, -, -⟩ := hinv.nodeField j e' he'
        have he'mem : e' ∈ l := by
          obtain ⟨hlj, hvj⟩ := List.getElem?_eq_some.mp he'
          exact hpre.sublist.mem (hvj ▸ List.getElem_mem hlj)
        have hemem : e ∈ l := hpre'.sublist.mem (by simp)
        have htree : e'.type = EntryType.tree :=
          hgood.2 e hemem e' he'mem (by rw [hpe'])
        have hchildsome : pn.children.isSome = true :=
          (hinv.childIffTree j pn hpn).mpr (hpntype.trans htree)
        obtain ⟨cs, hcs⟩ : ∃ cs : List Nat, pn.children = some cs := by
          cases hx : pn.children with
          | none => rw [hx] at hchildsome; cases hchildsome
          | some cs => exact ⟨cs, rfl⟩
        have hl' : lookupIdx ((e.path, (pre.foldl addEntry initState).nodes.length) ::
            (pre.foldl addEntry initState).pathIdx) (parentPathOf e.path) = some j := by
          rw [lookupIdx_cons_ne _ _ _ _ (fun hc => hne hc.symm)]
          exact hl
        have hnj : ((pre.foldl addEntry initState).nodes ++ [mkStored e])[j]? =
            some pn := by
          rw [List.getElem?_append_left hj']
          exact hpn
        rw [addEntry_child _ e j pn cs hroot hl' hnj hcs]
        show (((pre.foldl addEntry initState).rootIdx).flatMap
            (flat (((pre.foldl addEntry initState).nodes ++ [mkStored e]).set j
              { pn with children := some (cs ++
                [(pre.foldl addEntry initState).nodes.length]) }) fuel)).count q0
          = ((pre ++ [e]).map TreeEntry.path).count q0
        have hnodup : ∀ (i₁ i₂ : Nat) (sn₁ sn₂ : StoredNode),
            (pre.foldl addEntry initState).nodes[i₁]? = some sn₁ →
            (pre.foldl addEntry initState).nodes[i₂]? = some sn₂ →
            ¬ i₁ = i₂ → ¬ sn₁.path = sn₂.path := by
          intro i₁ i₂ sn₁ sn₂ h₁ h₂ hne' hpp
          have hi₁ : i₁ < pre.length := by
            have := (List.getElem?_eq_some.mp h₁).1
            omega
          have hi₂ : i₂ < pre.length := by
            have := (List.getElem?_eq_some.mp h₂).1
            omega
          obtain ⟨f₁, hf₁⟩ : ∃ f₁ : TreeEntry, pre[i₁]? = some f₁ := by
            rw [List.getElem?_eq_getElem hi₁]
            exact ⟨_, rfl⟩
          obtain ⟨f₂, hf₂⟩ : ∃ f₂ : TreeEntry, pre[i₂]? = some f₂ := by
            rw [List.getElem?_eq_getElem hi₂]
            exact ⟨_, rfl⟩
          obtain ⟨sn₁', hsn₁', hsp₁, -, -, -⟩ := hinv.nodeField i₁ f₁ hf₁
          obtain ⟨sn₂', hsn₂', hsp₂, -, -, -⟩ := hinv.nodeField i₂ f₂ hf₂
          rw [h₁] at hsn₁'
          rw [h₂] at hsn₂'
          cases hsn₁'
          cases hsn₂'
          exact nodup_paths_ne hprenodup hf₁ hf₂ hne' (by
            rw [← hsp₁, ← hsp₂]
            exact hpp)
        have hcount : ∀ i ∈ (pre.foldl addEntry initState).rootIdx,
            (flat (((pre.foldl addEntry initState).nodes ++ [mkStored e]).set j
              { pn with children := some (cs ++
                [(pre.foldl addEntry initState).nodes.length]) }) fuel i).count q0
            = (flat (pre.foldl addEntry initState).nodes fuel i).count q0 +
              (flat (pre.foldl addEntry initState).nodes fuel i).count pn.path *
                List.count q0 [e.path] := by
          intro i hi
          exact flat_childPush_count e hb2 hnodup hj' hpn hcs q0 fuel i
            (hinv.rootBound i hi) (by omega)
        rw [List.count_flatMap]
        simp only [Function.comp_def]
        rw [show (pre.foldl addEntry initState).rootIdx.map
              (fun i => List.count q0
                (flat (((pre.foldl addEntry initState).nodes ++ [mkStored e]).set j
                  { pn with children := some (cs ++
                    [(pre.foldl addEntry initState).nodes.length]) }) fuel i))
            = (pre.foldl addEntry initState).rootIdx.map
              (fun i => List.count q0 (flat (pre.foldl addEntry initState).nodes fuel i)
                + List.count pn.path (flat (pre.foldl addEntry initState).nodes fuel i) *
                  List.count q0 [e.path]) from
          List.map_congr_left (fun i hi => hcount i hi)]
        rw [List.sum_map_add, List.sum_map_mul_right]
        have hsq : ((pre.foldl addEntry initState).rootIdx.map
            (fun i => List.count q0 (flat (pre.foldl addEntry initState).nodes fuel i))).sum
            = (pre.map TreeEntry.path).count q0 := by
          have hx := ih hpre fuel (by omega) q0
          rw [List.count_flatMap] at hx
          simpa only [Function.comp_def] using hx
        have hsp : ((pre.foldl addEntry initState).rootIdx.map
            (fun i => List.count pn.path
              (flat (pre.foldl addEntry initState).nodes fuel i))).sum = 1 := by
          have hx := ih hpre fuel (by omega) pn.path
          rw [List.count_flatMap] at hx
          simp only [Function.comp_def] at hx
          rw [hx, hpnpath]
          apply List.count_eq_one_of_mem hprenodup
          obtain ⟨hlj, hvj⟩ := List.getElem?_eq_some.mp he'
          exact hvj ▸ List.mem_map_of_mem TreeEntry.path (List.getElem_mem hlj)
        rw [hsq, hsp]
        simp [List.map_append, List.count_append]

/-- Well-formedness transfers along permutations. -/
theorem goodList_perm {l₁ l₂ : List TreeEntry} (hp : l₁.Perm l₂)
    (h : GoodList l₁) : GoodList l₂ := by
  constructor
  · exact ((hp.map TreeEntry.path).nodup_iff).mp h.1
  · intro e he pe hpe hpp
    exact h.2 e (hp.mem_iff.mpr he) pe (hp.mem_iff.mpr hpe) hpp

/-- **C1, counterexample.** The claim as stated — every entry path appears
exactly once in the output for every pairwise-distinct-path input — fails:
with entries `[{path:"a", type:blob}, {path:"a/b", type:blob}]` (distinct
paths), the path `"a/b"` appears zero times in the output forest.  The entry
`"a/b"` finds `"a"` in the map, but the mapped node is a file without a
children container, so the optional-chaining push is a silent no-op and the
entry is lost. -/
theorem C1_counterexample :
    (([⟨"a", .blob, "s1"⟩, ⟨"a/b", .blob, "s2"⟩] : List TreeEntry).map
      TreeEntry.path).Nodup ∧
    (forestPaths (([⟨"a", .blob, "s1"⟩, ⟨"a/b", .blob, "s2"⟩] :
        List TreeEntry).length + 1)
      (buildTreeStructure [⟨"a", .blob, "s1"⟩, ⟨"a/b", .blob, "s2"⟩])).count
      "a/b" = 0 := by
  decide

/-- **C1, amended.** For every list of TreeEntry with pairwise-distinct paths
in which every entry whose path is the parent path of some other entry has
type `tree` (a directory — as in every real recursive git listing), the
output forest of `buildTreeStructure` contains a node whose full path equals
that entry's path exactly once for every input entry — no entry is
duplicated and no entry is lost — including the orphan case where an entry's
ancestor directory is absent from the list, in which case the entry becomes
a root-level node rather than being dropped. -/
theorem C1_exactly_once (items : List TreeEntry) (hgood : GoodList items)
    (e : TreeEntry) (he : e ∈ items) :
    (forestPaths (items.length + 1) (buildTreeStructure items)).count e.path
      = 1 := by
  have hperm : (sortEntries items).Perm items := List.perm_insertionSort entryLe items
  have hgood' : GoodList (sortEntries items) := goodList_perm hperm.symm hgood
  have hinv : StInv (sortEntries items)
      ((sortEntries items).foldl addEntry initState) := stInv_fold (sortEntries items)
  have hlen : (sortEntries items).length = items.length := hperm.length_eq
  have hcount := forest_count_inv (sortEntries items) hgood' (sortEntries items)
    (List.prefix_refl _) ((sortEntries items).length + 1) (le_refl _) e.path
  show (forestPaths (items.length + 1)
      (((sortEntries items).foldl addEntry initState).rootIdx.map
        (toNode ((sortEntries items).foldl addEntry initState).nodes
          (((sortEntries items).foldl addEntry initState).nodes.length + 1)))).count
      e.path = 1
  rw [show ((sortEntries items).foldl addEntry initState).nodes.length
      = items.length from by rw [hinv.len, hlen]]
  unfold forestPaths
  rw [List.flatMap_map]
  rw [hlen] at hcount
  rw [show (fun i => nodePaths (items.length + 1)
      (toNode ((sortEntries items).foldl addEntry initState).nodes
        (items.length + 1) i))
    = flat ((sortEntries items).foldl addEntry initState).nodes
        (items.length + 1) from rfl]
  rw [hcount]
  rw [List.Perm.count_eq (hperm.map TreeEntry.path) e.path]
  exact List.count_eq_one_of_mem hgood.1 (List.mem_map_of_mem TreeEntry.path he)

/-- Witness for C1: the spec's orphan example — a single `"a/b/c.txt"` blob
with no entry for `"a"` or `"a/b"` appears exactly once, as a root node. -/
theorem C1_exactly_once_witness :
    GoodList [⟨"a/b/c.txt", .blob, "s1"⟩] ∧
    (⟨"a/b/c.txt", .blob, "s1"⟩ : TreeEntry) ∈
      ([⟨"a/b/c.txt", .blob, "s1"⟩] : List TreeEntry) ∧
    (forestPaths (([⟨"a/b/c.txt", .blob, "s1"⟩] : List TreeEntry).length + 1)
      (buildTreeStructure [⟨"a/b/c.txt", .blob, "s1"⟩])).count "a/b/c.txt" = 1 :=
  ⟨by decide, by decide,
    C1_exactly_once [⟨"a/b/c.txt", .blob, "s1"⟩] (by decide)
      ⟨"a/b/c.txt", .blob, "s1"⟩ (by decide)⟩

end AutodocSpec
